import Mathlib

/-!
Verification development for `py-mod-deps-lextractor.py`, a static-analysis
tool that computes a module-level dependency graph for a tree of Python
source files.

The Python program is shallowly embedded: the composite package/module tree
(`PackageInfo`), the import extractor (`ImportsExtractor`), the dependency
reader (`DependenciesReader`) and the emitter (`output_dependencies`) become
Lean functions over explicit data.  Python dicts become association lists
that preserve insertion order (the program never overwrites a key); Python
sets become deduplicated lists.  The host-language facilities the program
uses (`ast.parse`, `pathlib`) are modelled by explicit data: a module's
source file is represented by the list of import statements its AST
contains, and a directory by a list of named entries.

Because `PackageInfo` and the filesystem entries are trees whose children
sit inside a map, the child maps are given by mutually inductive list types
(`PkgMap`, `FSDir`) rather than `List`, so that every recursion over the
tree is structural and reduces inside the kernel; `PkgMap.toList` and
`FSDir.toList` mediate to ordinary lists.
-/

namespace PyModDeps

/-- `Identifier = str`: one dotted-name component. -/
abbrev Identifier := String

/-- `QModName = Tuple[Identifier, ...]`: a qualified module name. -/
abbrev QModName := List Identifier

/-! ### Splitting dotted names

`mod_name_from_str` does `tuple(name.split('.'))`.  Python's `str.split('.')`
is modelled by an explicit recursion over the characters. -/

/-- Model of Python `s.split('.')` on the character list of `s`:
splits at every `.` character; the result is never empty
(`"".split('.') == ['']`). -/
def splitDots : List Char → List (List Char)
  | [] => [[]]
  | c :: cs =>
    let rest := splitDots cs
    if c = '.' then [] :: rest
    else (c :: rest.headI) :: rest.tail

/-- `mod_name_from_str(name) = tuple(name.split('.'))`. -/
def mod_name_from_str (name : String) : QModName :=
  (splitDots name.data).map List.asString

/-- `render_mod_name(qname) = '.'.join(qname)`. -/
def render_mod_name (qname : QModName) : String :=
  String.intercalate "." qname

/-! ### Import statements

The program relies on Python's `ast` module; only the two import node kinds
matter.  `ast.alias` carries a name (for `ast.Import` a dotted string, for
`ast.ImportFrom` a plain identifier or the wildcard `*`); the aliases'
`asname` is never read by the program, so it is omitted. -/

/-- One import statement of a module's AST.
`imp names` is `ast.Import` (each element the dotted `alias.name`);
`impFrom level module names` is `ast.ImportFrom` (`level` the relative
level, `module` the dotted base text — always present when `level = 0` by
Python's grammar; for `level > 0` the program never reads it). -/
inductive ImportStmt : Type where
  | imp : List String → ImportStmt
  | impFrom : Nat → String → List String → ImportStmt
deriving DecidableEq, Repr

/-! ### The package/module tree

`ModuleInfo` holds the module's source file; all the program does with the
file is parse it and walk the import statements, so the model stores that
list directly.  `PackageInfo` holds two insertion-ordered dicts: the
`modules` dict is an ordinary association list, the `packages` dict is the
mutually inductive association list `PkgMap`. -/

mutual

/-- `PackageInfo`: `modules` maps an identifier to the module's parsed
statements of imports (its `ModuleInfo`), `packages` to the sub-package. -/
inductive PackageInfo : Type where
  | mk : List (Identifier × List ImportStmt) → PkgMap → PackageInfo

/-- The `packages` dict of a `PackageInfo`, as an insertion-ordered
association list. -/
inductive PkgMap : Type where
  | nil : PkgMap
  | cons : Identifier → PackageInfo → PkgMap → PkgMap

end

/-- The `packages` dict as an ordinary association list. -/
def PkgMap.toList : PkgMap → List (Identifier × PackageInfo)
  | .nil => []
  | .cons i p rest => (i, p) :: rest.toList

/-- The `modules` dict of a `PackageInfo`. -/
def PackageInfo.modules : PackageInfo → List (Identifier × List ImportStmt)
  | .mk ms _ => ms

/-- The `packages` dict of a `PackageInfo`, as an association list. -/
def PackageInfo.packages : PackageInfo → List (Identifier × PackageInfo)
  | .mk _ ps => ps.toList

/-- `self.names = set(itertools.chain(modules.keys(), packages.keys()))`:
the set of direct member names (deduplicated, as Python's `set`). -/
def PackageInfo.names (p : PackageInfo) : List Identifier :=
  (p.modules.map Prod.fst ++ p.packages.map Prod.fst).dedup

/-- `PackageInfo.is_root_of(qname) = qname[0] in self.names`.  The source
indexes `qname[0]`, which raises `IndexError` on an empty tuple; the `[]`
branch returns `false` here and is proved unreachable from the public
interface (claim C10). -/
def PackageInfo.is_root_of (p : PackageInfo) (qname : QModName) : Bool :=
  match qname with
  | [] => false
  | x :: _ => p.names.contains x

mutual

/-- `PackageInfo._iter_modules(parent_qname, ...)`: yields every module of
the subtree with its qualified name — the node's own modules first, then
each sub-package's modules recursively, in dict order.  The `parents`
diagnostic list is never read by the program, so it is omitted. -/
def PackageInfo.iter_modulesFrom : PackageInfo → QModName →
    List (QModName × List ImportStmt)
  | .mk ms ps, parent =>
    ms.map (fun m => (parent ++ [m.1], m.2)) ++ PkgMap.iter_modulesFrom ps parent
termination_by structural p _ => p

/-- The `for ident, p_info in packages.items()` loop of `_iter_modules`. -/
def PkgMap.iter_modulesFrom : PkgMap → QModName →
    List (QModName × List ImportStmt)
  | .nil, _ => []
  | .cons i q rest, parent =>
    PackageInfo.iter_modulesFrom q (parent ++ [i]) ++
    PkgMap.iter_modulesFrom rest parent
termination_by structural ps _ => ps

end

/-- `PackageInfo.iter_modules()`: the full enumeration, rooted at `()`. -/
def PackageInfo.iter_modules (p : PackageInfo) :
    List (QModName × List ImportStmt) :=
  p.iter_modulesFrom []

/-! ### The import extractor

`ImportsExtractor` visits the AST and appends candidate qualified names to
`self.output`; the visit of a statement list is the concatenation of each
statement's contribution, in order. -/

/-- `ImportsExtractor._lookup_package(qname)`: starting at the root, walk
`packages` component-by-component; the loop breaks (returning `None`) at
the first component that is not a sub-package. -/
def lookup_package (p : PackageInfo) : QModName → Option PackageInfo
  | [] => some p
  | ident :: rest =>
    match p.packages.lookup ident with
    | none => none
    | some q => lookup_package q rest

/-- `ImportsExtractor._star_or_non_star_names(imported, package_info)`:
the member-name set on the single wildcard `*`, the listed names
otherwise. -/
def star_or_non_star_names (imported : List String) (pkg : PackageInfo) :
    List Identifier :=
  if imported = ["*"] then pkg.names else imported

/-- `ImportsExtractor._handle_absolute(node)`: drop the import unless the
base's first component is a direct member of the root; then expand through
the package (candidates `base + (ident,)`) when the base resolves to a
`PackageInfo`, and fall back to the bare `base` otherwise. -/
def handle_absolute (root : PackageInfo) (module : String)
    (names : List String) : List QModName :=
  let base := mod_name_from_str module
  if ¬ root.is_root_of base then []
  else
    match lookup_package root base with
    | some pkg => (star_or_non_star_names names pkg).map (fun i => base ++ [i])
    | none => [base]

/-- The candidates one AST import statement contributes to
`ImportsExtractor.output`: `visit_Import` appends
`mod_name_from_str(n.name)` for each alias; `visit_ImportFrom` dispatches
on the relative level, and `_handle_relative` is `pass`. -/
def extract_stmt (root : PackageInfo) : ImportStmt → List QModName
  | .imp names => names.map mod_name_from_str
  | .impFrom 0 module names => handle_absolute root module names
  | .impFrom (_ + 1) _ _ => []

/-- `DependenciesReader._extract_imports(module)`: the extractor's `output`
after visiting the module's whole AST. -/
def extract_imports (root : PackageInfo) (stmts : List ImportStmt) :
    List QModName :=
  (stmts.map (extract_stmt root)).flatten

/-- `DependenciesReader._is_target(module) = root_dir_info.is_root_of(module)`. -/
def is_target (root : PackageInfo) (qname : QModName) : Bool :=
  root.is_root_of qname

/-- `DependenciesReader._deps_of_file(module)`: the module's qualified name
paired with `set(qname for qname in imported if _is_target(qname))`
(deduplicated, as Python's `set`). -/
def deps_of_file (root : PackageInfo) (qname : QModName)
    (stmts : List ImportStmt) : QModName × List QModName :=
  (qname, ((extract_imports root stmts).filter (is_target root)).dedup)

/-- The `for mod_file_info in iter_modules()` loop of
`DependenciesReader.read()`, over an explicit enumeration order. -/
def readOn (root : PackageInfo) (mods : List (QModName × List ImportStmt)) :
    List (QModName × List QModName) :=
  mods.map (fun m => deps_of_file root m.1 m.2)

/-- `DependenciesReader.read()`: one dict entry per enumerated module.  The
dict is modelled as an association list; its keys are proved pairwise
distinct for well-formed trees (claim C8), so no entry overwrites
another. -/
def read (root : PackageInfo) : List (QModName × List QModName) :=
  readOn root root.iter_modules

/-! ### The emitter -/

/-- `output_dependencies(dependencies)`: each element of the result is one
printed line. -/
def output_dependencies (deps : List (QModName × List QModName)) :
    List String :=
  (deps.map (fun sd =>
    sd.2.map (fun dst => render_mod_name sd.1 ++ " " ++ render_mod_name dst))).flatten

/-! ### The tree builder

`PackageInfo.of_dir` scans a directory with `pathlib`; the filesystem is
modelled as explicit entries.  A file entry keeps Python's `Path`
stem/suffix split explicit (`p.suffix` is the extension from the last dot,
`p.with_suffix('').name` the stem, `p.name` their concatenation), and a
`.py` file's content is the list of import statements its AST contains. -/

mutual

/-- One directory entry: a file (stem, extension, parsed imports when it is
a Python source file) or a subdirectory with its own entries. -/
inductive FSEntry : Type where
  | file : String → String → List ImportStmt → FSEntry
  | dir : String → FSDir → FSEntry

/-- A directory: its entries, in iteration order. -/
inductive FSDir : Type where
  | nil : FSDir
  | cons : FSEntry → FSDir → FSDir

end

/-- A directory's entries as an ordinary list. -/
def FSDir.toList : FSDir → List FSEntry
  | .nil => []
  | .cons e rest => e :: rest.toList

/-- `(p / '__init__.py').is_file()`: the directory holds the package
marker. -/
def has_marker (d : FSDir) : Bool :=
  d.toList.any (fun e =>
    match e with
    | .file stem ext _ => stem ++ ext = "__init__.py"
    | .dir _ _ => false)

/-- The module entry `PackageInfo.of_dir` makes of one directory entry: a
file with suffix `.py` whose name is not `__init__.py` becomes a module
keyed by its stem. -/
def module_of_entry : FSEntry → Option (Identifier × List ImportStmt)
  | .file stem ext imps =>
    if ext = ".py" ∧ stem ++ ext ≠ "__init__.py" then some (stem, imps)
    else none
  | .dir _ _ => none

/-- The `modules` dict built by `PackageInfo.of_dir`. -/
def modules_of_dir (d : FSDir) : List (Identifier × List ImportStmt) :=
  d.toList.filterMap module_of_entry

/-- The `packages` dict built by `PackageInfo.of_dir`: a subdirectory
containing the marker recursively becomes a sub-package (built by
`PackageInfo.of_dir`, here inlined as
`PackageInfo.mk (modules_of_dir sub) (packages_of_dir sub)`) keyed by its
directory name; a subdirectory without the marker is skipped (never
recursed into). -/
def packages_of_dir : FSDir → PkgMap
  | .nil => .nil
  | .cons (.file _ _ _) rest => packages_of_dir rest
  | .cons (.dir name sub) rest =>
    if has_marker sub then
      .cons name (PackageInfo.mk (modules_of_dir sub) (packages_of_dir sub))
        (packages_of_dir rest)
    else packages_of_dir rest
termination_by structural d => d

/-- `PackageInfo.of_dir(src_dir)`: one pass over the entries, building the
`modules` and `packages` dicts; entries matching neither arm are
skipped. -/
def of_dir (d : FSDir) : PackageInfo :=
  PackageInfo.mk (modules_of_dir d) (packages_of_dir d)

/-- The package entry `PackageInfo.of_dir` makes of one directory entry
(the second arm of its scan). -/
def pkg_of_entry : FSEntry → Option (Identifier × PackageInfo)
  | .dir name sub => if has_marker sub then some (name, of_dir sub) else none
  | .file _ _ _ => none

/-- `main(src_dir, extra_targets)`: build the tree, read the dependencies,
emit.  The source also computes
`all_targets = src_dir_targets.union(extra_targets)` (line 211) but never
passes it to `DependenciesReader`, so `extra_targets` does not influence
the output (claim C1). -/
def main (src_dir : FSDir) (extra_targets : List QModName) : List String :=
  let root := of_dir src_dir
  let _ := extra_targets
  output_dependencies (read root)

/-! ### Specification-side notions

The definitions below do not embed program code; they name concepts the
specification speaks about (edges, relative imports, existence of a node in
the tree, well-formedness of the scanned directory data) so that the claims
can be stated. -/

/-- A list of entries as an `FSDir`. -/
def FSDir.ofList : List FSEntry → FSDir
  | [] => .nil
  | e :: es => .cons e (FSDir.ofList es)

/-- A from-import with nonzero relative level. -/
def is_relative_from : ImportStmt → Bool
  | .impFrom (_ + 1) _ _ => true
  | _ => false

/-- The edges of a resolution result: one `(source, target)` pair per
target of each entry. -/
def edges (deps : List (QModName × List QModName)) :
    List (QModName × QModName) :=
  (deps.map (fun sd => sd.2.map (fun dst => (sd.1, dst)))).flatten

/-- The qualified name denotes a `ModuleNode` of the tree: walk `packages`
through all components but the last, then look the last component up in
`modules`. -/
def lookup_module (p : PackageInfo) : QModName → Option (List ImportStmt)
  | [] => none
  | [i] => p.modules.lookup i
  | i :: rest => (p.packages.lookup i).bind (fun q => lookup_module q rest)

/-- `true` iff the list has no repeated element. -/
def distinctKeys : List Identifier → Bool
  | [] => true
  | x :: xs => !(xs.contains x) && distinctKeys xs

mutual

/-- Well-formedness of a tree, as a directory scan guarantees it: within
each node, the `modules` dict's keys are pairwise distinct and so are the
`packages` dict's keys (filesystem names in one directory are unique). -/
def PackageInfo.wf : PackageInfo → Bool
  | .mk ms ps =>
    distinctKeys (ms.map Prod.fst) && distinctKeys (ps.toList.map Prod.fst) &&
    PkgMap.wf ps
termination_by structural p => p

/-- Every package of the map is well-formed. -/
def PkgMap.wf : PkgMap → Bool
  | .nil => true
  | .cons _ q rest => PackageInfo.wf q && PkgMap.wf rest
termination_by structural ps => ps

end

/-! ## Helper lemmas -/

lemma splitDots_ne_nil (cs : List Char) : splitDots cs ≠ [] := by
  induction cs with
  | nil => simp [splitDots]
  | cons c cs ih =>
    simp only [splitDots]
    by_cases h : c = '.' <;> simp [h]

lemma mod_name_from_str_ne_nil (s : String) : mod_name_from_str s ≠ [] := by
  simp only [mod_name_from_str, ne_eq, List.map_eq_nil_iff]
  exact splitDots_ne_nil s.data

lemma lookup_mem {β : Type} {l : List (Identifier × β)} {k : Identifier}
    {v : β} (h : l.lookup k = some v) : (k, v) ∈ l := by
  induction l with
  | nil => simp [List.lookup] at h
  | cons a t ih =>
    obtain ⟨ak, av⟩ := a
    rw [List.lookup_cons] at h
    by_cases hk : ak = k
    · subst hk
      simp at h
      simp [h]
    · simp [beq_false_of_ne (Ne.symm hk)] at h
      exact List.mem_cons_of_mem _ (ih h)

lemma mem_lookup {β : Type} {l : List (Identifier × β)} {k : Identifier}
    {v : β} (hn : (l.map Prod.fst).Nodup) (h : (k, v) ∈ l) :
    l.lookup k = some v := by
  induction l with
  | nil => simp at h
  | cons a t ih =>
    obtain ⟨ak, av⟩ := a
    simp only [List.map_cons, List.nodup_cons] at hn
    rcases List.mem_cons.mp h with h | h
    · rw [(Prod.mk.injEq _ _ _ _).mp h.symm |>.1]
      rw [List.lookup_cons]
      simp [(Prod.mk.injEq _ _ _ _).mp h.symm |>.2]
    · have hk : k ≠ ak := fun hak =>
        hn.1 (hak ▸ List.mem_map_of_mem Prod.fst h)
      rw [List.lookup_cons]
      simp [beq_false_of_ne hk]
      exact ih hn.2 h

lemma distinctKeys_iff (l : List Identifier) :
    distinctKeys l = true ↔ l.Nodup := by
  induction l with
  | nil => simp [distinctKeys]
  | cons x xs ih => simp [distinctKeys, ih]

lemma mem_extract_imports {root : PackageInfo} {stmts : List ImportStmt}
    {q : QModName} :
    q ∈ extract_imports root stmts ↔ ∃ s ∈ stmts, q ∈ extract_stmt root s := by
  simp only [extract_imports, List.mem_flatten, List.mem_map]
  constructor
  · rintro ⟨l, ⟨s, hs, rfl⟩, hq⟩
    exact ⟨s, hs, hq⟩
  · rintro ⟨s, hs, hq⟩
    exact ⟨extract_stmt root s, ⟨s, hs, rfl⟩, hq⟩

lemma extract_stmt_ne_nil {root : PackageInfo} {s : ImportStmt}
    {q : QModName} (h : q ∈ extract_stmt root s) : q ≠ [] := by
  cases s with
  | imp names =>
    simp [extract_stmt] at h
    obtain ⟨n, _, rfl⟩ := h
    exact mod_name_from_str_ne_nil n
  | impFrom lvl m names =>
    cases lvl with
    | zero =>
      simp only [extract_stmt, handle_absolute] at h
      split at h
      · simp at h
      · split at h
        · simp at h
          obtain ⟨i, _, rfl⟩ := h
          simp
        · simp at h
          rw [h]
          exact mod_name_from_str_ne_nil m
    | succ l => simp [extract_stmt] at h

lemma extract_imports_cons (root : PackageInfo) (s : ImportStmt)
    (t : List ImportStmt) :
    extract_imports root (s :: t) = extract_stmt root s ++ extract_imports root t := by
  simp [extract_imports]

lemma extract_imports_filter_relative (root : PackageInfo)
    (stmts : List ImportStmt) :
    extract_imports root (stmts.filter (fun s => ! is_relative_from s)) =
      extract_imports root stmts := by
  induction stmts with
  | nil => rfl
  | cons s t ih =>
    rw [List.filter_cons]
    by_cases h : is_relative_from s
    · have hs : extract_stmt root s = [] := by
        cases s with
        | imp names => simp [is_relative_from] at h
        | impFrom lvl m ns =>
          cases lvl with
          | zero => simp [is_relative_from] at h
          | succ l => rfl
      simp [h, extract_imports_cons, hs, ih]
    · simp [h, extract_imports_cons, ih]

/-! ## The claims -/

/-- C4: for every module and every from-import with nonzero relative
level, no candidate target is produced, and hence filtering the relative
from-imports out of a module's statements leaves its resolved dependency
set unchanged — no edge is ever produced by them, regardless of target-set
membership. -/
theorem relative_imports_never_yield_edges (root : PackageInfo) (lvl : Nat)
    (m : String) (ns : List String) (q : QModName) (stmts : List ImportStmt)
    (h : lvl ≠ 0) :
    extract_stmt root (.impFrom lvl m ns) = [] ∧
    deps_of_file root q (stmts.filter (fun s => ! is_relative_from s)) =
      deps_of_file root q stmts := by
  constructor
  · cases lvl with
    | zero => exact absurd rfl h
    | succ l => rfl
  · simp [deps_of_file, extract_imports_filter_relative]

/-- Witness for C4 at a concrete relative import. -/
theorem relative_imports_never_yield_edges_witness :
    extract_stmt (of_dir .nil) (.impFrom 1 "a.b" ["x"]) = [] ∧
    deps_of_file (of_dir .nil) ["m"]
        ([ImportStmt.impFrom 1 "a.b" ["x"]].filter (fun s => ! is_relative_from s)) =
      deps_of_file (of_dir .nil) ["m"] [ImportStmt.impFrom 1 "a.b" ["x"]] :=
  relative_imports_never_yield_edges (of_dir .nil) 1 "a.b" ["x"] ["m"]
    [ImportStmt.impFrom 1 "a.b" ["x"]] (by decide)

/-- C5: the emitter outputs exactly one line per target of each entry,
consisting of the source rendered with `.`-joined components, one space,
and the target so rendered; entries with an empty target set contribute no
line. -/
theorem emitter_one_line_per_edge :
    (∀ deps : List (QModName × List QModName),
      (output_dependencies deps).length = (deps.map (fun sd => sd.2.length)).sum) ∧
    (∀ (pre post : List (QModName × List QModName)) (s : QModName),
      output_dependencies (pre ++ (s, ([] : List QModName)) :: post) =
        output_dependencies (pre ++ post)) ∧
    (∀ (deps : List (QModName × List QModName)) (line : String),
      line ∈ output_dependencies deps ↔
        ∃ sd ∈ deps, ∃ dst ∈ sd.2,
          line = render_mod_name sd.1 ++ " " ++ render_mod_name dst) := by
  refine ⟨?_, ?_, ?_⟩
  · intro deps
    simp only [output_dependencies, List.length_flatten, List.map_map]
    exact congrArg List.sum (List.map_congr_left (fun sd _ => by simp))
  · intro pre post s
    simp [output_dependencies]
  · intro deps line
    simp only [output_dependencies, List.mem_flatten, List.mem_map]
    constructor
    · rintro ⟨l, ⟨sd, hsd, rfl⟩, hl⟩
      obtain ⟨dst, hdst, rfl⟩ := List.mem_map.mp hl
      exact ⟨sd, hsd, dst, hdst, rfl⟩
    · rintro ⟨sd, hsd, dst, hdst, rfl⟩
      exact ⟨_, ⟨sd, hsd, rfl⟩, List.mem_map_of_mem _ hdst⟩

/-- C7: a module consisting of the plain import of a dotted name resolves
to exactly the one edge to that name verbatim when its first component is
a target, and to no edge otherwise; moreover in any module a plain import
of a target name puts exactly one such edge in the module's (duplicate-free)
dependency set. -/
theorem plain_import_resolution (root : PackageInfo) (q : QModName)
    (s : String) (stmts : List ImportStmt) :
    (deps_of_file root q [.imp [s]] =
      (q, if is_target root (mod_name_from_str s) then [mod_name_from_str s]
          else [])) ∧
    (ImportStmt.imp [s] ∈ stmts → is_target root (mod_name_from_str s) = true →
      mod_name_from_str s ∈ (deps_of_file root q stmts).2) ∧
    (deps_of_file root q stmts).2.Nodup := by
  refine ⟨?_, ?_, ?_⟩
  · by_cases h : is_target root (mod_name_from_str s)
    · simp [deps_of_file, extract_imports, extract_stmt, h,
        List.dedup_cons_of_not_mem]
    · simp [deps_of_file, extract_imports, extract_stmt, h]
  · intro hmem htgt
    simp only [deps_of_file, List.mem_dedup, List.mem_filter]
    constructor
    · exact mem_extract_imports.mpr
        ⟨_, hmem, by simp [extract_stmt]⟩
    · exact htgt
  · exact List.nodup_dedup _

/-- Witness for C7: module `m` importing `a.b.c` in a tree with top-level
module `a`. -/
theorem plain_import_resolution_witness :
    (deps_of_file (of_dir (FSDir.cons (.file "a" ".py" []) .nil)) ["m"]
        [.imp ["a.b.c"]] =
      (["m"], if is_target (of_dir (FSDir.cons (.file "a" ".py" []) .nil))
            (mod_name_from_str "a.b.c") then [mod_name_from_str "a.b.c"]
          else [])) ∧
    mod_name_from_str "a.b.c" ∈
      (deps_of_file (of_dir (FSDir.cons (.file "a" ".py" []) .nil)) ["m"]
        [.imp ["a.b.c"]]).2 :=
  ⟨(plain_import_resolution (of_dir (FSDir.cons (.file "a" ".py" []) .nil))
      ["m"] "a.b.c" [.imp ["a.b.c"]]).1,
   (plain_import_resolution (of_dir (FSDir.cons (.file "a" ".py" []) .nil))
      ["m"] "a.b.c" [.imp ["a.b.c"]]).2.1 (by decide) (by decide)⟩

lemma is_root_of_of_lookup_package {root pkg : PackageInfo} {b : Identifier}
    {rest : QModName} (h : lookup_package root (b :: rest) = some pkg) :
    root.is_root_of (b :: rest) = true := by
  simp only [lookup_package] at h
  cases hb : root.packages.lookup b with
  | none => rw [hb] at h; simp at h
  | some q =>
    have hmem : (b, q) ∈ root.packages := lookup_mem hb
    have : b ∈ PackageInfo.names root := by
      simp only [PackageInfo.names, List.mem_dedup, List.mem_append]
      exact Or.inr (List.mem_map_of_mem Prod.fst hmem)
    simp only [PackageInfo.is_root_of]
    exact List.elem_eq_true_of_mem this

/-- C2: an absolute from-import whose base resolves (walking the tree
component-by-component from the root) to an existing package yields the
candidates `base + (n,)` for each listed name `n` — with the member-name
set of that package substituted for the name list when it is exactly the
single wildcard — and the wildcard expansion has exactly one candidate per
member. -/
theorem from_import_package_candidates (root pkg : PackageInfo) (m : String)
    (names : List String)
    (h : lookup_package root (mod_name_from_str m) = some pkg) :
    extract_stmt root (.impFrom 0 m names) =
      (if names = ["*"] then pkg.names else names).map
        (fun n => mod_name_from_str m ++ [n]) ∧
    (extract_stmt root (.impFrom 0 m ["*"])).Nodup := by
  have key : ∀ ns : List String, extract_stmt root (.impFrom 0 m ns) =
      (if ns = ["*"] then pkg.names else ns).map
        (fun n => mod_name_from_str m ++ [n]) := by
    intro ns
    obtain ⟨b, rest, hbr⟩ : ∃ b rest, mod_name_from_str m = b :: rest := by
      cases hmm : mod_name_from_str m with
      | nil => exact absurd hmm (mod_name_from_str_ne_nil m)
      | cons b rest => exact ⟨b, rest, rfl⟩
    have hroot : root.is_root_of (mod_name_from_str m) = true := by
      rw [hbr]
      exact is_root_of_of_lookup_package (hbr ▸ h)
    by_cases hn : ns = ["*"] <;>
      simp [extract_stmt, handle_absolute, hroot, h, star_or_non_star_names, hn]
  refine ⟨key names, ?_⟩
  rw [key ["*"]]
  simp only [if_pos rfl]
  refine List.Nodup.map ?_ (List.nodup_dedup _)
  intro a b hab
  simpa using List.append_cancel_left hab

/-- Witness for C2: wildcard from-import of package `p` with members `x`
and `y`. -/
theorem from_import_package_candidates_witness :
    extract_stmt
        (of_dir (FSDir.ofList [.dir "p" (FSDir.ofList
          [.file "__init__" ".py" [], .file "x" ".py" [], .file "y" ".py" []])]))
        (.impFrom 0 "p" ["*"]) =
      (if ["*"] = ["*"] then
          (of_dir (FSDir.ofList
            [.file "__init__" ".py" [], .file "x" ".py" [], .file "y" ".py" []])).names
        else ["*"]).map (fun n => mod_name_from_str "p" ++ [n]) ∧
    (extract_stmt
        (of_dir (FSDir.ofList [.dir "p" (FSDir.ofList
          [.file "__init__" ".py" [], .file "x" ".py" [], .file "y" ".py" []])]))
        (.impFrom 0 "p" ["*"])).Nodup :=
  from_import_package_candidates
    (of_dir (FSDir.ofList [.dir "p" (FSDir.ofList
      [.file "__init__" ".py" [], .file "x" ".py" [], .file "y" ".py" []])]))
    (of_dir (FSDir.ofList
      [.file "__init__" ".py" [], .file "x" ".py" [], .file "y" ".py" []]))
    "p" ["*"] rfl

/-- C3 counterexample: in a tree containing only the top-level module `m`,
the from-import `from vendor.lib import helper` has a base that does not
resolve to a package (`vendor` is external), yet it contributes no
candidate at all — not the base qualified name, as the claim states. -/
theorem from_import_unresolved_base_counterexample :
    extract_stmt (of_dir (FSDir.cons (.file "m" ".py" []) .nil))
        (.impFrom 0 "vendor.lib" ["helper"]) = [] ∧
    lookup_package (of_dir (FSDir.cons (.file "m" ".py" []) .nil))
        (mod_name_from_str "vendor.lib") = none ∧
    ([] : List QModName) ≠ [mod_name_from_str "vendor.lib"] :=
  ⟨rfl, rfl, by decide⟩

/-- C3 amended: for an absolute from-import whose base does not resolve to
a package, the sole candidate target is the base itself — provided the
base's first component is a member of the tree root (the pre-check
`is_root_of` passes); otherwise the import contributes no candidate.  In
both cases the individually imported symbol names contribute nothing. -/
theorem from_import_unresolved_base (root : PackageInfo) (m : String)
    (names : List String)
    (h : lookup_package root (mod_name_from_str m) = none) :
    extract_stmt root (.impFrom 0 m names) =
      if root.is_root_of (mod_name_from_str m) then [mod_name_from_str m]
      else [] := by
  by_cases hr : root.is_root_of (mod_name_from_str m) <;>
    simp [extract_stmt, handle_absolute, hr, h]

/-- Witness for C3 (amended) at a tree whose root holds the module `a`:
`from a import sym` has a base naming a module, so the candidate is `a`
itself. -/
theorem from_import_unresolved_base_witness :
    extract_stmt (of_dir (FSDir.cons (.file "a" ".py" []) .nil))
        (.impFrom 0 "a" ["sym"]) =
      if (of_dir (FSDir.cons (.file "a" ".py" []) .nil)).is_root_of
          (mod_name_from_str "a") then [mod_name_from_str "a"]
      else [] :=
  from_import_unresolved_base (of_dir (FSDir.cons (.file "a" ".py" []) .nil))
    "a" ["sym"] rfl

/-- C10: splitting a dotted import name on `.` always yields at least one
component, and every qualified name the extractor produces is a non-empty
sequence of identifiers — so `is_root_of`, which inspects the first
component, never receives an empty sequence from the public interface. -/
theorem extractor_names_nonempty :
    (∀ s : String, mod_name_from_str s ≠ []) ∧
    (∀ (root : PackageInfo) (stmts : List ImportStmt) (q : QModName),
      q ∈ extract_imports root stmts → q ≠ []) := by
  refine ⟨mod_name_from_str_ne_nil, ?_⟩
  intro root stmts q hq
  obtain ⟨s, _, hq⟩ := mem_extract_imports.mp hq
  exact extract_stmt_ne_nil hq

/-- Witness for C10: the empty string still splits into one component, and
a concrete extracted name is non-empty. -/
theorem extractor_names_nonempty_witness :
    mod_name_from_str "" ≠ [] ∧ (["os"] : QModName) ≠ [] :=
  ⟨extractor_names_nonempty.1 "",
   extractor_names_nonempty.2 (of_dir .nil) [.imp ["os"]] ["os"] (by decide)⟩

/-- C1 (code bug): the target set actually used to keep resolved import
edges ignores the extra targets supplied via `--target` — `main` computes
`all_targets = src_dir_targets ∪ extra_targets` but never passes it to
`DependenciesReader`, whose `_is_target` consults only the tree root's
direct children.  Hence the output never depends on the extra targets, and
with `--target foo` a module importing `foo.bar` still produces no edge,
contradicting the `--target` option's own help text. -/
theorem extra_targets_ignored :
    (∀ (src : FSDir) (extras : List QModName), main src extras = main src []) ∧
    main (FSDir.cons (.file "m" ".py" [.imp ["foo.bar"]]) .nil) [["foo"]] = [] :=
  ⟨fun _ _ => rfl, by decide⟩

theorem packages_of_dir_toList : ∀ d : FSDir,
    (packages_of_dir d).toList = d.toList.filterMap pkg_of_entry
  | .nil => rfl
  | .cons (.file s x i) rest => by
    simp [packages_of_dir, FSDir.toList, List.filterMap_cons, pkg_of_entry,
      packages_of_dir_toList rest]
  | .cons (.dir n sub) rest => by
    by_cases h : has_marker sub <;>
      simp [packages_of_dir, FSDir.toList, List.filterMap_cons, PkgMap.toList,
        pkg_of_entry, packages_of_dir_toList rest, h, of_dir]
termination_by structural d => d

lemma ofList_cons (e : FSEntry) (l : List FSEntry) :
    FSDir.ofList (e :: l) = FSDir.cons e (FSDir.ofList l) := rfl

lemma modules_of_dir_cons (e : FSEntry) (d : FSDir) :
    modules_of_dir (FSDir.cons e d) =
      (match e with
       | .file stem ext imps =>
         if ext = ".py" ∧ stem ++ ext ≠ "__init__.py" then [(stem, imps)]
         else []
       | .dir _ _ => []) ++ modules_of_dir d := by
  cases e with
  | file s x i =>
    simp only [modules_of_dir, FSDir.toList, List.filterMap_cons, module_of_entry]
    by_cases hc : (x = ".py" ∧ s ++ x ≠ "__init__.py")
    · obtain ⟨rfl, hs⟩ := hc
      simp [hs]
    · simp [hc]
  | dir n s =>
    simp [modules_of_dir, FSDir.toList, List.filterMap_cons, module_of_entry]

lemma packages_of_dir_cons_dir (n : String) (sub d : FSDir) :
    packages_of_dir (FSDir.cons (.dir n sub) d) =
      if has_marker sub then PkgMap.cons n (of_dir sub) (packages_of_dir d)
      else packages_of_dir d := by
  by_cases h : has_marker sub <;> simp [packages_of_dir, h, of_dir]

/-- C6: for every scanned directory, the builder creates a module entry
keyed by filename stem for every `.py` file except the `__init__.py`
marker, creates a child package for every subdirectory containing the
marker (and only those), and skips marker-less subdirectories entirely:
their contents never influence the resulting tree. -/
theorem tree_builder_structure :
    (∀ (d : FSDir) (stem : String) (imps : List ImportStmt),
      (stem, imps) ∈ (of_dir d).modules ↔
        FSEntry.file stem ".py" imps ∈ d.toList ∧ stem ++ ".py" ≠ "__init__.py") ∧
    (∀ (d : FSDir) (name : Identifier) (p : PackageInfo),
      (name, p) ∈ (of_dir d).packages ↔
        ∃ sub, FSEntry.dir name sub ∈ d.toList ∧ has_marker sub = true ∧
          p = of_dir sub) ∧
    (∀ (pre post : List FSEntry) (name : String) (sub sub' : FSDir),
      has_marker sub = false → has_marker sub' = false →
      of_dir (FSDir.ofList (pre ++ FSEntry.dir name sub :: post)) =
        of_dir (FSDir.ofList (pre ++ FSEntry.dir name sub' :: post))) := by
  refine ⟨?_, ?_, ?_⟩
  · intro d stem imps
    show (stem, imps) ∈ modules_of_dir d ↔ _
    simp only [modules_of_dir, List.mem_filterMap]
    constructor
    · rintro ⟨e, he, hfe⟩
      cases e with
      | file s x i =>
        simp only [module_of_entry] at hfe
        split at hfe
        · rename_i hc
          simp only [Option.some.injEq, Prod.mk.injEq] at hfe
          obtain ⟨rfl, rfl⟩ := hfe
          exact ⟨hc.1 ▸ he, hc.1 ▸ hc.2⟩
        · exact absurd hfe (by simp)
      | dir n s => simp [module_of_entry] at hfe
    · rintro ⟨he, hne⟩
      exact ⟨FSEntry.file stem ".py" imps, he, by simp [module_of_entry, hne]⟩
  · intro d name p
    show (name, p) ∈ (packages_of_dir d).toList ↔ _
    rw [packages_of_dir_toList]
    simp only [List.mem_filterMap]
    constructor
    · rintro ⟨e, he, hfe⟩
      cases e with
      | file s x i => simp [pkg_of_entry] at hfe
      | dir n sub =>
        simp only [pkg_of_entry] at hfe
        split at hfe
        · rename_i hm
          simp only [Option.some.injEq, Prod.mk.injEq] at hfe
          obtain ⟨rfl, rfl⟩ := hfe
          exact ⟨sub, he, hm, rfl⟩
        · exact absurd hfe (by simp)
    · rintro ⟨sub, he, hm, rfl⟩
      exact ⟨FSEntry.dir name sub, he, by simp [pkg_of_entry, hm]⟩
  · intro pre post name sub sub' h1 h2
    induction pre with
    | nil =>
      simp only [List.nil_append, ofList_cons, of_dir]
      refine congrArg₂ PackageInfo.mk rfl ?_
      rw [packages_of_dir_cons_dir, packages_of_dir_cons_dir, h1, h2]
      simp
    | cons e pre ih =>
      have hpair := (PackageInfo.mk.injEq _ _ _ _).mp (by simpa [of_dir] using ih)
      simp only [List.cons_append, ofList_cons, of_dir]
      refine congrArg₂ PackageInfo.mk ?_ ?_
      · rw [modules_of_dir_cons, modules_of_dir_cons, hpair.1]
      · cases e with
        | file s x i => exact hpair.2
        | dir n s =>
          rw [packages_of_dir_cons_dir, packages_of_dir_cons_dir, hpair.2]

/-- Witness for C6's skip clause: the contents of a marker-less directory
do not influence the tree. -/
theorem tree_builder_structure_witness :
    of_dir (FSDir.ofList ([FSEntry.file "a" ".py" []] ++
        FSEntry.dir "junk" (FSDir.ofList [FSEntry.file "x" ".py" []]) :: [])) =
      of_dir (FSDir.ofList ([FSEntry.file "a" ".py" []] ++
        FSEntry.dir "junk" FSDir.nil :: [])) :=
  tree_builder_structure.2.2 [FSEntry.file "a" ".py" []] [] "junk"
    (FSDir.ofList [FSEntry.file "x" ".py" []]) FSDir.nil (by decide) (by decide)

lemma mem_edges {deps : List (QModName × List QModName)}
    {e : QModName × QModName} :
    e ∈ edges deps ↔ ∃ sd ∈ deps, ∃ dst ∈ sd.2, e = (sd.1, dst) := by
  simp only [edges, List.mem_flatten, List.mem_map]
  constructor
  · rintro ⟨l, ⟨sd, hsd, rfl⟩, hl⟩
    obtain ⟨dst, hdst, rfl⟩ := List.mem_map.mp hl
    exact ⟨sd, hsd, dst, hdst, rfl⟩
  · rintro ⟨sd, hsd, dst, hdst, rfl⟩
    exact ⟨_, ⟨sd, hsd, rfl⟩, List.mem_map_of_mem _ hdst⟩

/-- C9: resolution is deterministic as a set — over one tree, reading the
same modules (with the same parsed sources) in any enumeration order
produces per-module results that are a permutation of each other, and in
particular exactly the same set of edges. -/
theorem resolution_deterministic (root : PackageInfo)
    (mods1 mods2 : List (QModName × List ImportStmt))
    (h : mods1.Perm mods2) :
    (readOn root mods1).Perm (readOn root mods2) ∧
    (∀ e, e ∈ edges (readOn root mods1) ↔ e ∈ edges (readOn root mods2)) := by
  have hp : (readOn root mods1).Perm (readOn root mods2) := h.map _
  refine ⟨hp, fun e => ?_⟩
  simp only [mem_edges]
  constructor
  · rintro ⟨sd, hsd, hrest⟩
    exact ⟨sd, hp.mem_iff.mp hsd, hrest⟩
  · rintro ⟨sd, hsd, hrest⟩
    exact ⟨sd, hp.mem_iff.mpr hsd, hrest⟩

/-- Witness for C9: two enumeration orders of the same two modules. -/
theorem resolution_deterministic_witness :
    (readOn (of_dir (FSDir.cons (.file "a" ".py" []) .nil))
        [(["a"], []), (["b"], [.imp ["a"]])]).Perm
      (readOn (of_dir (FSDir.cons (.file "a" ".py" []) .nil))
        [(["b"], [.imp ["a"]]), (["a"], [])]) ∧
    (∀ e, e ∈ edges (readOn (of_dir (FSDir.cons (.file "a" ".py" []) .nil))
        [(["a"], []), (["b"], [.imp ["a"]])]) ↔
      e ∈ edges (readOn (of_dir (FSDir.cons (.file "a" ".py" []) .nil))
        [(["b"], [.imp ["a"]]), (["a"], [])])) :=
  resolution_deterministic (of_dir (FSDir.cons (.file "a" ".py" []) .nil))
    [(["a"], []), (["b"], [.imp ["a"]])]
    [(["b"], [.imp ["a"]]), (["a"], [])] (by decide)

mutual

theorem iter_shift : ∀ (p : PackageInfo) (par : QModName),
    p.iter_modulesFrom par =
      (p.iter_modulesFrom []).map (fun m => (par ++ m.1, m.2))
  | .mk ms ps, par => by
    simp only [PackageInfo.iter_modulesFrom]
    rw [pkg_iter_shift ps par, pkg_iter_shift ps []]
    simp [List.map_map, Function.comp]
termination_by structural p => p

theorem pkg_iter_shift : ∀ (ps : PkgMap) (par : QModName),
    PkgMap.iter_modulesFrom ps par =
      (PkgMap.iter_modulesFrom ps []).map (fun m => (par ++ m.1, m.2))
  | .nil, par => rfl
  | .cons i q rest, par => by
    simp only [PkgMap.iter_modulesFrom]
    rw [iter_shift q (par ++ [i]), iter_shift q ([] ++ [i]),
      pkg_iter_shift rest par]
    simp [List.map_map, Function.comp]
termination_by structural ps => ps

end

theorem mem_pkg_iter : ∀ (ps : PkgMap) (x : QModName × List ImportStmt),
    x ∈ PkgMap.iter_modulesFrom ps [] ↔
      ∃ i q t, (i, q) ∈ ps.toList ∧ x.1 = i :: t ∧
        (t, x.2) ∈ q.iter_modulesFrom []
  | .nil, x => by simp [PkgMap.iter_modulesFrom, PkgMap.toList]
  | .cons i q rest, x => by
    simp only [PkgMap.iter_modulesFrom, List.mem_append, PkgMap.toList]
    rw [iter_shift q ([] ++ [i])]
    constructor
    · rintro (h | h)
      · obtain ⟨y, hy, rfl⟩ := List.mem_map.mp h
        exact ⟨i, q, y.1, by simp, by simp, by simpa using hy⟩
      · obtain ⟨i', q', t, hmem, hx, ht⟩ := (mem_pkg_iter rest x).mp h
        exact ⟨i', q', t, List.mem_cons_of_mem _ hmem, hx, ht⟩
    · rintro ⟨i', q', t, hmem, hx, ht⟩
      rcases List.mem_cons.mp hmem with hh | hh
      · obtain ⟨rfl, rfl⟩ := Prod.mk.injEq .. |>.mp hh
        left
        refine List.mem_map.mpr ⟨(t, x.2), ht, ?_⟩
        obtain ⟨x1, x2⟩ := x
        simp only at hx
        simp [hx]
      · exact Or.inr ((mem_pkg_iter rest x).mpr ⟨i', q', t, hh, hx, ht⟩)
termination_by structural ps => ps

lemma mem_iter_fst_ne_nil {p : PackageInfo} {x : QModName × List ImportStmt}
    (h : x ∈ p.iter_modulesFrom []) : x.1 ≠ [] := by
  obtain ⟨ms, ps⟩ := p
  simp only [PackageInfo.iter_modulesFrom, List.mem_append] at h
  rcases h with h | h
  · obtain ⟨m, _, rfl⟩ := List.mem_map.mp h
    simp
  · obtain ⟨i, q, t, _, hx, _⟩ := (mem_pkg_iter ps x).mp h
    simp [hx]

lemma pkg_wf_of_mem : ∀ {ps : PkgMap} {i : Identifier} {q : PackageInfo},
    PkgMap.wf ps = true → (i, q) ∈ ps.toList → PackageInfo.wf q = true
  | .nil, _, _, _, h => by simp [PkgMap.toList] at h
  | .cons j p rest, i, q, hwf, h => by
    simp only [PkgMap.wf, Bool.and_eq_true] at hwf
    rcases List.mem_cons.mp h with hh | hh
    · obtain ⟨rfl, rfl⟩ := Prod.mk.injEq .. |>.mp hh
      exact hwf.1
    · exact pkg_wf_of_mem hwf.2 hh

mutual

theorem mem_iter_iff_lookup : ∀ (p : PackageInfo), PackageInfo.wf p = true →
    ∀ (q : QModName) (st : List ImportStmt),
    ((q, st) ∈ p.iter_modulesFrom [] ↔ lookup_module p q = some st)
  | .mk ms ps, hwf, q, st => by
    rw [PackageInfo.wf, Bool.and_eq_true, Bool.and_eq_true] at hwf
    obtain ⟨⟨hms, hps⟩, hpw⟩ := hwf
    rw [distinctKeys_iff] at hms hps
    cases q with
    | nil =>
      constructor
      · intro h
        exact absurd rfl (mem_iter_fst_ne_nil h)
      · intro h
        simp [lookup_module] at h
    | cons i rest =>
      cases rest with
      | nil =>
        simp only [PackageInfo.iter_modulesFrom, List.mem_append]
        constructor
        · rintro (h | h)
          · obtain ⟨m, hm, hmeq⟩ := List.mem_map.mp h
            have h1 : m.1 = i := by simpa using congrArg (fun y => y.1) hmeq
            have h2 : m.2 = st := by simpa using congrArg (fun y => y.2) hmeq
            simp only [lookup_module, PackageInfo.modules]
            exact mem_lookup hms (by rw [← h1, ← h2]; simpa using hm)
          · obtain ⟨i', q', t, hmem, hx, ht⟩ := (mem_pkg_iter ps _).mp h
            simp only [List.cons.injEq] at hx
            obtain ⟨rfl, rfl⟩ := hx
            exact absurd rfl (mem_iter_fst_ne_nil ht)
        · intro h
          left
          have hm : (i, st) ∈ ms :=
            lookup_mem (by simpa [lookup_module, PackageInfo.modules] using h)
          exact List.mem_map.mpr ⟨(i, st), hm, by simp⟩
      | cons j rest' =>
        simp only [PackageInfo.iter_modulesFrom, List.mem_append]
        constructor
        · rintro (h | h)
          · obtain ⟨m, hm, hmeq⟩ := List.mem_map.mp h
            have := congrArg (fun y => y.1.length) hmeq
            simp at this
          · obtain ⟨i', q', t, hmem, hx, ht⟩ := (mem_pkg_iter ps _).mp h
            simp only [List.cons.injEq] at hx
            obtain ⟨rfl, rfl⟩ := hx
            have hlq : (PkgMap.toList ps).lookup i = some q' := mem_lookup hps hmem
            have hchild :=
              (pkg_member_iff ps hpw i q' hmem (j :: rest') st).mp ht
            simp [lookup_module, PackageInfo.packages, hlq, hchild]
        · intro h
          simp only [lookup_module, PackageInfo.packages] at h
          cases hlq : (PkgMap.toList ps).lookup i with
          | none => rw [hlq] at h; simp at h
          | some q' =>
            rw [hlq] at h
            simp only [Option.some_bind] at h
            have hmem := lookup_mem hlq
            have hchild := (pkg_member_iff ps hpw i q' hmem (j :: rest') st).mpr h
            right
            exact (mem_pkg_iter ps _).mpr ⟨i, q', j :: rest', hmem, rfl, hchild⟩
termination_by structural p => p

theorem pkg_member_iff : ∀ (ps : PkgMap), PkgMap.wf ps = true →
    ∀ (i : Identifier) (pq : PackageInfo), (i, pq) ∈ ps.toList →
    ∀ (q : QModName) (st : List ImportStmt),
    ((q, st) ∈ pq.iter_modulesFrom [] ↔ lookup_module pq q = some st)
  | .nil, _, i, pq, h => by simp [PkgMap.toList] at h
  | .cons j p rest, hwf, i, pq, h => by
    rw [PkgMap.wf, Bool.and_eq_true] at hwf
    rcases List.mem_cons.mp h with hh | hh
    · obtain ⟨h1, h2⟩ := Prod.mk.injEq .. |>.mp hh
      rw [h2]
      exact mem_iter_iff_lookup p hwf.1
    · exact pkg_member_iff rest hwf.2 i pq hh
termination_by structural ps => ps

end

mutual

theorem nodup_iter_keys : ∀ (p : PackageInfo), PackageInfo.wf p = true →
    ((p.iter_modulesFrom []).map Prod.fst).Nodup
  | .mk ms ps, hwf => by
    rw [PackageInfo.wf, Bool.and_eq_true, Bool.and_eq_true] at hwf
    obtain ⟨⟨hms, hps⟩, hpw⟩ := hwf
    rw [distinctKeys_iff] at hms hps
    simp only [PackageInfo.iter_modulesFrom, List.map_append]
    refine List.Nodup.append ?_ (nodup_pkg_iter_keys ps hpw hps) ?_
    · rw [List.map_map]
      have he : (Prod.fst ∘ fun m : Identifier × List ImportStmt =>
          (([] : QModName) ++ [m.1], m.2)) = (fun i => [i]) ∘ Prod.fst := by
        funext m
        simp
      rw [he, ← List.map_map]
      exact hms.map (fun a b hab => by simpa using hab)
    · intro x hx1 hx2
      rw [List.map_map] at hx1
      obtain ⟨m, _, hxm⟩ := List.mem_map.mp hx1
      obtain ⟨z, hz, hxz⟩ := List.mem_map.mp hx2
      obtain ⟨i, qq, t, _, hzt, ht⟩ := (mem_pkg_iter ps z).mp hz
      have hne : t ≠ [] := mem_iter_fst_ne_nil ht
      have hx : x = [m.1] := by simpa using hxm.symm
      have hx2e : x = i :: t := by rw [← hxz, hzt]
      rw [hx] at hx2e
      exact hne ((List.cons.injEq .. |>.mp hx2e).2.symm)
termination_by structural p => p

theorem nodup_pkg_iter_keys : ∀ (ps : PkgMap), PkgMap.wf ps = true →
    (ps.toList.map Prod.fst).Nodup →
    ((PkgMap.iter_modulesFrom ps []).map Prod.fst).Nodup
  | .nil, _, _ => by simp [PkgMap.iter_modulesFrom]
  | .cons i q rest, hwf, hkeys => by
    rw [PkgMap.wf, Bool.and_eq_true] at hwf
    simp only [PkgMap.toList, List.map_cons, List.nodup_cons] at hkeys
    simp only [PkgMap.iter_modulesFrom, List.map_append]
    refine List.Nodup.append ?_ (nodup_pkg_iter_keys rest hwf.2 hkeys.2) ?_
    · rw [iter_shift q ([] ++ [i]), List.map_map]
      have he : (Prod.fst ∘ fun m : QModName × List ImportStmt =>
          ((([] : QModName) ++ [i]) ++ m.1, m.2)) =
          (fun t => i :: t) ∘ Prod.fst := by
        funext m
        simp
      rw [he, ← List.map_map]
      exact (nodup_iter_keys q hwf.1).map
        (fun a b hab => by simpa using hab)
    · intro x hx1 hx2
      rw [iter_shift q ([] ++ [i]), List.map_map] at hx1
      obtain ⟨w, _, hxw⟩ := List.mem_map.mp hx1
      obtain ⟨z, hz, hxz⟩ := List.mem_map.mp hx2
      obtain ⟨i2, q2, t, hmem, hzt, _⟩ := (mem_pkg_iter rest z).mp hz
      have h1 : i :: w.1 = i2 :: t := by
        have hx : x = i :: w.1 := by simpa using hxw.symm
        rw [← hx, ← hxz, hzt]
      have h2 : i = i2 := (List.cons.injEq .. |>.mp h1).1
      exact hkeys.1 (h2 ▸ List.mem_map_of_mem Prod.fst hmem)
termination_by structural ps => ps

end

lemma read_keys (root : PackageInfo) :
    (read root).map Prod.fst = (root.iter_modulesFrom []).map Prod.fst := by
  simp [read, readOn, PackageInfo.iter_modules, List.map_map, Function.comp,
    deps_of_file]

/-- C8: every produced entry's source qualified name corresponds to a
module that exists in the tree, every tree module appears exactly once as
a result entry (full recursive enumeration, pairwise-distinct sources),
while an edge's target name need not exist in the tree — witnessed by a
kept edge whose target is neither a module nor a package of the tree. -/
theorem read_sources_exist_and_complete (root : PackageInfo)
    (h : PackageInfo.wf root = true) :
    (∀ src dsts, (src, dsts) ∈ read root →
      ∃ st, lookup_module root src = some st) ∧
    (∀ q st, lookup_module root q = some st → q ∈ (read root).map Prod.fst) ∧
    ((read root).map Prod.fst).Nodup ∧
    ((["m"], [["a", "zzz"]]) ∈
        read (of_dir (FSDir.ofList
          [.file "m" ".py" [.imp ["a.zzz"]], .file "a" ".py" []])) ∧
      lookup_module (of_dir (FSDir.ofList
          [.file "m" ".py" [.imp ["a.zzz"]], .file "a" ".py" []]))
        ["a", "zzz"] = none ∧
      lookup_package (of_dir (FSDir.ofList
          [.file "m" ".py" [.imp ["a.zzz"]], .file "a" ".py" []]))
        ["a", "zzz"] = none) := by
  refine ⟨?_, ?_, ?_, by decide, rfl, rfl⟩
  · intro src dsts hmem
    simp only [read, readOn] at hmem
    obtain ⟨m, hm, hmeq⟩ := List.mem_map.mp hmem
    have h1 : m.1 = src := congrArg Prod.fst hmeq
    refine ⟨m.2, ?_⟩
    rw [← h1]
    exact (mem_iter_iff_lookup root h m.1 m.2).mp (by simpa using hm)
  · intro q st hl
    have hmem := (mem_iter_iff_lookup root h q st).mpr hl
    rw [read_keys]
    exact List.mem_map.mpr ⟨(q, st), hmem, rfl⟩
  · rw [read_keys]
    exact nodup_iter_keys root h

/-- Witness for C8 on a concrete two-module tree. -/
theorem read_sources_exist_and_complete_witness :
    (∃ st, lookup_module (of_dir (FSDir.ofList
        [.file "m" ".py" [.imp ["a.zzz"]], .file "a" ".py" []]))
      ["m"] = some st) ∧
    (["a"] : QModName) ∈ (read (of_dir (FSDir.ofList
        [.file "m" ".py" [.imp ["a.zzz"]], .file "a" ".py" []]))).map Prod.fst ∧
    ((read (of_dir (FSDir.ofList
        [.file "m" ".py" [.imp ["a.zzz"]], .file "a" ".py" []]))).map
      Prod.fst).Nodup :=
  ⟨(read_sources_exist_and_complete (of_dir (FSDir.ofList
        [.file "m" ".py" [.imp ["a.zzz"]], .file "a" ".py" []]))
      (by decide)).1 ["m"] [["a", "zzz"]] (by decide),
   (read_sources_exist_and_complete (of_dir (FSDir.ofList
        [.file "m" ".py" [.imp ["a.zzz"]], .file "a" ".py" []]))
      (by decide)).2.1 ["a"] [] (by decide),
   (read_sources_exist_and_complete (of_dir (FSDir.ofList
        [.file "m" ".py" [.imp ["a.zzz"]], .file "a" ".py" []]))
      (by decide)).2.2.1⟩

end PyModDeps
